import Mathlib

/-!
Shallow embedding of the Obsidian Auto Linker plugin (src/main.ts) and proofs
about its linking, extraction, removal, and undo operations.

Conventions used throughout:
* document text is modeled as `List Char` (the `data` of a `String`); the line
  terminator is modeled as the single character LF;
* the concrete JavaScript regular expressions used by the plugin are modeled by
  explicit scanning functions; case-insensitive matching folds ASCII letters
  (which matches the `i` flag on the ASCII range);
* recursive scanners take an explicit fuel argument so that they are structural
  and evaluate by kernel reduction; the public wrappers supply fuel
  `length + 1`, which is always sufficient;
* the external host facilities (the Obsidian vault API) are modeled by explicit
  state: the list of markdown file paths of the vault and a content map.
-/

namespace AutoLinker

/-- ASCII lower-casing of one character, modeling `String.prototype.toLowerCase`
and the case folding of the `i` regex flag on the ASCII range. -/
def lowerChar : Char → Char
  | 'A' => 'a'
  | 'B' => 'b'
  | 'C' => 'c'
  | 'D' => 'd'
  | 'E' => 'e'
  | 'F' => 'f'
  | 'G' => 'g'
  | 'H' => 'h'
  | 'I' => 'i'
  | 'J' => 'j'
  | 'K' => 'k'
  | 'L' => 'l'
  | 'M' => 'm'
  | 'N' => 'n'
  | 'O' => 'o'
  | 'P' => 'p'
  | 'Q' => 'q'
  | 'R' => 'r'
  | 'S' => 's'
  | 'T' => 't'
  | 'U' => 'u'
  | 'V' => 'v'
  | 'W' => 'w'
  | 'X' => 'x'
  | 'Y' => 'y'
  | 'Z' => 'z'
  | c => c

/-- Lower-casing of a whole string (`toLowerCase`). -/
def lowerStr (s : List Char) : List Char := s.map lowerChar

/-- Whitespace for the purposes of `String.prototype.trim` (ASCII subset). -/
def isWS (c : Char) : Bool := c = ' ' || c = '\t' || c = '\n' || c = '\r'

/-- Model of `String.prototype.trim`: drop whitespace at both ends. -/
def trim (s : List Char) : List Char :=
  ((s.dropWhile isWS).reverse.dropWhile isWS).reverse

/-- Model of `String.prototype.split(sep)` for a single separator character.
`"".split(sep)` is `[""]`, hence the base case. -/
def splitOnChar (sep : Char) : List Char → List (List Char)
  | [] => [[]]
  | c :: r =>
    if c = sep then [] :: splitOnChar sep r
    else
      match splitOnChar sep r with
      | [] => [[c]]
      | l :: ls => (c :: l) :: ls

/-- Parsing of a comma-separated settings string as done in `linkWords` and
`getWordsToLink`: `split(',').map(s => s.trim().toLowerCase()).filter(Boolean)`. -/
def parseLowerList (s : List Char) : List (List Char) :=
  ((splitOnChar ',' s).map (fun x => lowerStr (trim x))).filter (fun x => !x.isEmpty)

/-- Parsing of the `linksToRemove` setting as done in `removeLinksFromDirectory`:
`split(',').map(link => link.trim()).filter(Boolean)` (no lower-casing). -/
def parseTrimList (s : List Char) : List (List Char) :=
  ((splitOnChar ',' s).map trim).filter (fun x => !x.isEmpty)

/-- Model of `String.prototype.includes`: `needle` occurs contiguously in
`hay`. -/
def isSubstr (needle hay : List Char) : Bool :=
  hay.tails.any (fun t => needle.isPrefixOf t)

/-- Deduplication preserving first occurrences, modeling insertion into a
JavaScript `Set` followed by `Array.from`. -/
def dedupFirst (l : List (List Char)) : List (List Char) :=
  l.foldl (fun acc x => if acc.contains x then acc else acc ++ [x]) []

/-!
Section splitting.  `linkWords` splits the document with
`content.split(/^(#.*$)/m)`: the document becomes an alternating list of body
chunks and heading lines (the captured group).  Because `^` only matches at the
start of the text or right after an LF, and `$` matches right before an LF or
at the end, this is equivalent to: cut the text into LF-terminated lines, emit
every line starting with `#` (without its trailing LF) as a heading chunk, and
let consecutive remaining characters (including the LF that terminated a
heading line) accumulate into body chunks, with a body chunk emitted before
every heading and at the very end.
-/

/-- Cut a text into its lines, each keeping its trailing LF (the last line may
lack one); concatenating the pieces restores the text. -/
def linesKeep : List Char → List (List Char)
  | [] => []
  | c :: r =>
    if c = '\n' then ['\n'] :: linesKeep r
    else
      match linesKeep r with
      | [] => [[c]]
      | l :: ls => (c :: l) :: ls

/-- Reassemble the pieces of `linesKeep` into the alternating body/heading
chunk list produced by `content.split(/^(#.*$)/m)`.  `cur` is the body chunk
being accumulated. -/
def assembleSections (cur : List Char) : List (List Char) → List (List Char)
  | [] => [cur]
  | p :: rest =>
    if p.head? = some '#' then
      if p.getLast? = some '\n' then
        cur :: p.dropLast :: assembleSections ['\n'] rest
      else
        cur :: p :: assembleSections [] rest
    else
      assembleSections (cur ++ p) rest

/-- Model of `content.split(/^(#.*$)/m)` from `linkWords`. -/
def splitSections (content : List Char) : List (List Char) :=
  assembleSections [] (linesKeep content)

theorem flatten_linesKeep (c : List Char) : (linesKeep c).flatten = c := by
  induction c with
  | nil => rfl
  | cons x r ih =>
    rw [linesKeep]
    by_cases hx : x = '\n'
    · simp [hx] at ih ⊢
      exact ih
    · simp only [if_neg hx]
      cases h : linesKeep r with
      | nil =>
        rw [h] at ih
        simp at ih
        simp [ih]
      | cons l ls =>
        rw [h] at ih
        simp only [List.flatten_cons] at ih ⊢
        rw [List.cons_append, ih]

theorem flatten_assembleSections (ps : List (List Char)) :
    ∀ cur : List Char, (assembleSections cur ps).flatten = cur ++ ps.flatten := by
  induction ps with
  | nil => intro cur; simp [assembleSections]
  | cons p rest ih =>
    intro cur
    rw [assembleSections]
    by_cases hh : p.head? = some '#'
    · simp only [if_pos hh]
      by_cases hl : p.getLast? = some '\n'
      · simp only [if_pos hl]
        have hne : p ≠ [] := by
          intro h; rw [h] at hl; simp at hl
        have hlast : p.getLast hne = '\n' := by
          have := List.getLast?_eq_getLast p hne
          rw [hl] at this
          exact (Option.some.injEq _ _).mp this.symm
        have hdrop : p.dropLast ++ ['\n'] = p := by
          conv_rhs => rw [← List.dropLast_append_getLast hne]
          rw [hlast]
        simp only [List.flatten_cons, ih, List.flatten]
        rw [← List.append_assoc p.dropLast, hdrop]
      · simp only [if_neg hl, List.flatten_cons, ih, List.flatten]
        simp
    · simp only [if_neg hh, ih, List.flatten_cons]
      simp

/-- Partition law for the section split: concatenating the chunks produced by
`splitSections` restores the original text exactly. -/
theorem flatten_splitSections (content : List Char) :
    (splitSections content).flatten = content := by
  rw [splitSections, flatten_assembleSections, flatten_linesKeep]
  simp

/-!
The word-linking regular expression.  For every candidate word `w`,
`linkWords` builds `new RegExp("(?<!\\[\\[)\\b(w)\\b(?!\\]\\])", "gi")` (with
`w` escaped, hence matched literally) and replaces every match `m` by
`[[m]]` (or leaves it if the existing-files-only gate rejects it).
-/

/-- Word character in the sense of the regex `\b` assertion: `[A-Za-z0-9_]`. -/
def isWordChar (c : Char) : Bool :=
  ('a' ≤ c && c ≤ 'z') || ('A' ≤ c && c ≤ 'Z') || ('0' ≤ c && c ≤ '9') || c = '_'

/-- Truth of the `\b` assertion between two adjacent positions: the characters
on the two sides (none at the ends of the text) differ in word-ness. -/
def wordBoundary (a b : Option Char) : Bool :=
  (match a with | some c => isWordChar c | none => false)
    != (match b with | some c => isWordChar c | none => false)

/-- Case-insensitive literal prefix match: if `rest` starts with a string that
folds to the same characters as `w`, return that matched text and the
remainder. -/
def ciTake : List Char → List Char → Option (List Char × List Char)
  | [], rest => some ([], rest)
  | _ :: _, [] => none
  | w :: ws, c :: rs =>
    if lowerChar c = lowerChar w then
      match ciTake ws rs with
      | some (m, r) => some (c :: m, r)
      | none => none
    else none

theorem ciTake_eq_append {w rest m r : List Char}
    (h : ciTake w rest = some (m, r)) : rest = m ++ r ∧ m.length = w.length := by
  induction w generalizing rest m r with
  | nil =>
    rw [ciTake] at h
    obtain ⟨h1, h2⟩ := Prod.mk.injEq .. ▸ Option.some.injEq .. ▸ h
    simp at h
    obtain ⟨h1, h2⟩ := h
    subst h1; subst h2; simp
  | cons x ws ih =>
    cases rest with
    | nil => rw [ciTake] at h; exact absurd h (by simp)
    | cons c rs =>
      rw [ciTake] at h
      by_cases hc : lowerChar c = lowerChar x
      · rw [if_pos hc] at h
        cases hm : ciTake ws rs with
        | none => rw [hm] at h; exact absurd h (by simp)
        | some p =>
          obtain ⟨m', r'⟩ := p
          rw [hm] at h
          simp at h
          obtain ⟨h1, h2⟩ := h
          obtain ⟨hmr, hl⟩ := ih hm
          subst h1; subst h2; subst hmr
          simp [hl]
      · rw [if_neg hc] at h; exact absurd h (by simp)

theorem ciTake_self_append (w t : List Char) : ciTake w (w ++ t) = some (w, t) := by
  induction w with
  | nil => rfl
  | cons c ws ih => simp [ciTake, ih]

/-- Attempt of the pattern `(?<!\[\[)\b(w)\b(?!\]\])` at one position of the
text.  `prev` holds the characters before the position, nearest first (they are
examined by the lookbehind and the left `\b`); on success the matched text and
the remainder after it are returned. -/
def tryMatch (w : List Char) (prev rest : List Char) : Option (List Char × List Char) :=
  match ciTake w rest with
  | none => none
  | some (m, r) =>
    let lookbehindFail := prev.head? = some '[' && prev.tail.head? = some '['
    let lookaheadFail := r.head? = some ']' && r.tail.head? = some ']'
    let boundStart := wordBoundary prev.head? rest.head?
    let boundEnd := wordBoundary (match m.getLast? with
      | some c => some c
      | none => prev.head?) r.head?
    if boundStart && boundEnd && !lookbehindFail && !lookaheadFail then
      some (m, r)
    else none

theorem tryMatch_eq_append {w prev rest m r : List Char}
    (h : tryMatch w prev rest = some (m, r)) : rest = m ++ r ∧ m.length = w.length := by
  rw [tryMatch] at h
  cases hm : ciTake w rest with
  | none => rw [hm] at h; exact absurd h (by simp)
  | some p =>
    obtain ⟨m', r'⟩ := p
    rw [hm] at h
    simp only at h
    by_cases hc :
        (wordBoundary prev.head? rest.head? &&
          wordBoundary (match m'.getLast? with
            | some c => some c
            | none => prev.head?) r'.head? &&
          !(prev.head? = some '[' && prev.tail.head? = some '[') &&
          !(r'.head? = some ']' && r'.tail.head? = some ']')) = true
    · rw [if_pos hc] at h
      simp at h
      obtain ⟨h1, h2⟩ := h
      subst h1; subst h2
      exact ciTake_eq_append hm
    · rw [if_neg hc] at h; exact absurd h (by simp)

/-- One global pass of `section.replace(pattern, repl)` for the word pattern:
scan left to right, replacing non-overlapping matches; `prev` holds the
characters of the input already passed, nearest first (lookbehind context).
The fuel argument makes the recursion structural; `length + 1` fuel always
suffices, and on exhaustion the remaining text is returned unchanged. -/
def scanReplF (repl : List Char → List Char) (w : List Char) :
    Nat → List Char → List Char → List Char
  | 0, _, rest => rest
  | fuel + 1, prev, rest =>
    match tryMatch w prev rest with
    | some (m, r) =>
      if m.isEmpty then
        match rest with
        | [] => repl []
        | c :: rs => repl [] ++ c :: scanReplF repl w fuel (c :: prev) rs
      else
        repl m ++ scanReplF repl w fuel (m.reverse ++ prev) r
    | none =>
      match rest with
      | [] => []
      | c :: rs => c :: scanReplF repl w fuel (c :: prev) rs

/-- The replacement callback of `linkWords`: keep the match unmodified when the
existing-files-only gate rejects it, otherwise wrap it in brackets. -/
def linkRepl (existOnly : Bool) (fileEx : List Char → Bool) (m : List Char) : List Char :=
  if existOnly && !fileEx m then m else '[' :: '[' :: (m ++ [']', ']'])

/-- Replacement of all pattern matches for one word in one section
(`sections[i].replace(pattern, ...)`). -/
def replaceWord (existOnly : Bool) (fileEx : List Char → Bool)
    (w sec : List Char) : List Char :=
  scanReplF (linkRepl existOnly fileEx) w (sec.length + 1) [] sec

/-- The per-word gate evaluated inside the loop of `linkWords`: the word is
processed iff its lower-cased form is not blacklisted and the whitelist is
empty or contains it. -/
def wordEligible (black white : List (List Char)) (w : List Char) : Bool :=
  !(black.contains (lowerStr w)) && (white.isEmpty || white.contains (lowerStr w))

/-- The inner loop of `linkWords` over the candidate words, applied to one
non-excluded body section. -/
def applyWords (existOnly : Bool) (fileEx : List Char → Bool)
    (black white : List (List Char)) (words : List (List Char))
    (sec : List Char) : List Char :=
  words.foldl
    (fun s w => if wordEligible black white w then replaceWord existOnly fileEx w s else s)
    sec

/-- Check of a heading against the excluded-section rules:
`excludedBlocks.some(block => section.toLowerCase().includes(block))`. -/
def isExcludedHeading (excl : List (List Char)) (sec : List Char) : Bool :=
  excl.any (fun b => isSubstr b (lowerStr sec))

/-- The loop of `linkWords` over the split sections, carrying the
`isExcludedBlock` flag: a section starting with `#` is a heading (left
unmodified, recomputing the flag), an excluded body section is left unmodified,
any other body section goes through the word loop. -/
def processSections (excl black white : List (List Char)) (existOnly : Bool)
    (fileEx : List Char → Bool) (words : List (List Char)) :
    Bool → List (List Char) → List (List Char)
  | _, [] => []
  | flag, sec :: rest =>
    if sec.head? = some '#' then
      sec :: processSections excl black white existOnly fileEx words
        (isExcludedHeading excl sec) rest
    else if flag then
      sec :: processSections excl black white existOnly fileEx words flag rest
    else
      applyWords existOnly fileEx black white words sec ::
        processSections excl black white existOnly fileEx words flag rest

/-- The plugin settings (`AutoLinkerSettings`); list-valued options are stored
raw and parsed at each use site, as in the source. -/
structure AutoLinkerSettings where
  existingFilesOnly : Bool
  specifiedDirectory : List Char
  excludedBlocks : List Char
  blacklistedStrings : List Char
  whitelistedStrings : List Char
  linksToRemove : List Char
  debugMode : Bool
deriving DecidableEq

/-- The `DEFAULT_SETTINGS` object. -/
def DEFAULT_SETTINGS : AutoLinkerSettings :=
  ⟨false, [], [], [], [], [], false⟩

/-- Model of `linkWords(content, wordsToLink)`: parse the three filter
settings, split the document into sections, process them with the excluded
flag initially `false`, and rejoin by concatenation.  `fileEx` is the
`fileExists` test used by the existing-files-only gate. -/
def linkWords (st : AutoLinkerSettings) (fileEx : List Char → Bool)
    (content : List Char) (wordsToLink : List (List Char)) : List Char :=
  (processSections (parseLowerList st.excludedBlocks)
    (parseLowerList st.blacklistedStrings) (parseLowerList st.whitelistedStrings)
    st.existingFilesOnly fileEx wordsToLink false (splitSections content)).flatten

/-!
The Link Remover.  For each configured link string, `removeLinks` builds
`new RegExp("\\[\\[link\\]\\]", "gi")` (link escaped, hence literal) and
replaces every match with the configured link string itself.  The replacement
string is inserted literally (links containing JS dollar-escape sequences are
outside the model).
-/

/-- Global case-insensitive replacement of the literal pattern
`p0 :: prest` by the constant string `repl`: scan left to right, replace
non-overlapping matches, advance one character when the pattern does not match
at the current position.  Fuel `length + 1` always suffices; on exhaustion the
remaining text is returned unchanged. -/
def ciReplaceAllF (p0 : Char) (prest repl : List Char) : Nat → List Char → List Char
  | 0, s => s
  | fuel + 1, s =>
    match ciTake (p0 :: prest) s with
    | some (_, r) => repl ++ ciReplaceAllF p0 prest repl fuel r
    | none =>
      match s with
      | [] => []
      | c :: rs => c :: ciReplaceAllF p0 prest repl fuel rs

/-- Wrapper choosing the standard fuel (the pattern of `removeLinks` is never
empty since it contains the brackets). -/
def ciReplaceAll (pat repl s : List Char) : List Char :=
  match pat with
  | [] => s
  | p0 :: prest => ciReplaceAllF p0 prest repl (s.length + 1) s

/-- Model of `removeLinks(content, linksToRemove)`: for each link in order,
replace every case-insensitive occurrence of `[[link]]` by the link string. -/
def removeLinks (content : List Char) (linksToRemove : List (List Char)) : List Char :=
  linksToRemove.foldl
    (fun acc l => ciReplaceAll ('[' :: '[' :: (l ++ [']', ']'])) l acc) content

/-- Case-insensitive occurrence test for a pattern: some tail of `s` starts
with a case-insensitive match of `pat`. -/
def ciOccurs (pat s : List Char) : Bool :=
  s.tails.any (fun t => (ciTake pat t).isSome)

/-!
The Corpus Link Extractor.  `getFileLinks` runs `/\[\[([^\]]+)\]\]/g` over a
document's text; for each match the captured text is cut at the first `|`,
trimmed, and pushed only when it contains no `.` or ends in `.md`.
-/

/-- The alias cut and trim applied to a captured bracket interior:
`match[1].split('|')[0].trim()`. -/
def aliasTarget (run : List Char) : List Char :=
  trim (run.takeWhile (fun c => c ≠ '|'))

/-- The retention test applied to an extracted link:
`!link.includes('.') || link.endsWith('.md')`. -/
def keepLink (l : List Char) : Bool :=
  !(l.contains '.') || (('.' :: ('m' :: ['d'])).isSuffixOf l)

/-- The scan of `/\[\[([^\]]+)\]\]/g` with the conditional push of
`getFileLinks`: at `[[` take the (nonempty) run of non-`]` characters, require
`]]` right after it, emit the processed target if retained and continue after
the match; otherwise retry from the next character (the scan drops one
character and goes on).  Fuel `length + 1` always suffices. -/
def getFileLinksF : Nat → List Char → List (List Char)
  | 0, _ => []
  | _ + 1, [] => []
  | fuel + 1, c :: rest =>
    if c = '[' && rest.head? = some '[' then
      let run := rest.tail.takeWhile (fun x => x ≠ ']')
      let r := rest.tail.dropWhile (fun x => x ≠ ']')
      if run.isEmpty then getFileLinksF fuel rest
      else if r.head? = some ']' && r.tail.head? = some ']' then
        (if keepLink (aliasTarget run) then [aliasTarget run] else []) ++
          getFileLinksF fuel r.tail.tail
      else getFileLinksF fuel rest
    else getFileLinksF fuel rest

/-- The same scan without the retention filter (every target pushed); used to
state the specification of `getFileLinks`. -/
def rawLinksF : Nat → List Char → List (List Char)
  | 0, _ => []
  | _ + 1, [] => []
  | fuel + 1, c :: rest =>
    if c = '[' && rest.head? = some '[' then
      let run := rest.tail.takeWhile (fun x => x ≠ ']')
      let r := rest.tail.dropWhile (fun x => x ≠ ']')
      if run.isEmpty then rawLinksF fuel rest
      else if r.head? = some ']' && r.tail.head? = some ']' then
        aliasTarget run :: rawLinksF fuel r.tail.tail
      else rawLinksF fuel rest
    else rawLinksF fuel rest

/-- Model of `getFileLinks` applied to a document's text. -/
def getFileLinks (content : List Char) : List (List Char) :=
  getFileLinksF (content.length + 1) content

/-- The ordered, unfiltered target sequence of a document's text. -/
def rawLinks (content : List Char) : List (List Char) :=
  rawLinksF (content.length + 1) content

/-!
The vault state model.  The Obsidian vault is external to the plugin; the model
keeps the list of markdown file paths (the files visited by the recursive
folder walks `processFolder` / `getMarkdownFiles`, which are host-API driven)
and a content map, together with the plugin settings and the `lastChanges`
ledger field of the plugin instance.
-/

/-- One entry of the `lastChanges` ledger: `{ file, oldContent }`. -/
structure LedgerEntry where
  file : List Char
  oldContent : List Char
deriving DecidableEq

/-- The mutable state relevant to the plugin: the vault (paths and contents),
the settings, and the ledger. -/
structure PState where
  allFiles : List (List Char)
  docs : List Char → List Char
  settings : AutoLinkerSettings
  lastChanges : List LedgerEntry

/-- Model of `vault.modify`: pointwise update of the content map. -/
def writeDoc (docs : List Char → List Char) (f c : List Char) :
    List Char → List Char :=
  fun p => if p = f then c else docs p

/-- Model of `fileExists(link)`: strip a trailing `.md`, re-append `.md`, and
test whether the vault has a markdown file with that path. -/
def fileExists (s : PState) (link : List Char) : Bool :=
  let base := if ('.' :: ('m' :: ['d'])).isSuffixOf link then
    link.take (link.length - 3) else link
  s.allFiles.contains (base ++ ['.', 'm', 'd'])

/-- Model of `getVaultLinks`: extract the targets of every markdown file and
deduplicate in first-occurrence order (the `Set` of `processFolder` followed by
`Array.from`). -/
def getVaultLinks (s : PState) : List (List Char) :=
  dedupFirst ((s.allFiles.map (fun f => getFileLinks (s.docs f))).flatten)

/-- Model of `getWordsToLink`: deduplicated vault links, filtered by the
whitelist when it is non-empty. -/
def getWordsToLink (s : PState) : List (List Char) :=
  let words := dedupFirst (getVaultLinks s)
  let whitelist := parseLowerList s.settings.whitelistedStrings
  if whitelist.isEmpty then words
  else words.filter (fun w => whitelist.contains (lowerStr w))

/-- Model of `autoLinkFile(file)`: read the content, compute the words to
link, rewrite; when the result differs, record the old content in the ledger
and write the new content. -/
def autoLinkFile (f : List Char) (s : PState) : PState :=
  let content := s.docs f
  let linked := linkWords s.settings (fileExists s) content (getWordsToLink s)
  if linked = content then s
  else
    { s with docs := writeDoc s.docs f linked,
             lastChanges := s.lastChanges ++ [⟨f, content⟩] }

/-- Model of `autoLinkCurrentFile()`: clear the ledger, then link the active
file when there is one. -/
def autoLinkCurrentFile (active : Option (List Char)) (s : PState) : PState :=
  let s0 : PState := { s with lastChanges := [] }
  match active with
  | some f => autoLinkFile f s0
  | none => s0

/-- Model of `extendLinkingToDirectory()`: link each markdown file of the
specified directory in order.  `files` is the file list produced by
`getMarkdownFiles` on the (valid) directory; directory resolution is host-API
driven and an invalid directory aborts before any mutation. -/
def extendLinkingToDirectory (files : List (List Char)) (s : PState) : PState :=
  files.foldl (fun st f => autoLinkFile f st) s

/-- The body of the loop of `removeLinksFromDirectory`: read, rewrite, and
when the content changed, write it back and bump the modified-file counter. -/
def removeLinksStep (links : List (List Char)) (acc : PState × Nat)
    (f : List Char) : PState × Nat :=
  let content := acc.1.docs f
  let newContent := removeLinks content links
  if newContent = content then acc
  else ({ acc.1 with docs := writeDoc acc.1.docs f newContent }, acc.2 + 1)

/-- Model of `removeLinksFromDirectory()`: parse `linksToRemove` once, rewrite
each file of the directory in order, count the modified ones.  No ledger
interaction. -/
def removeLinksFromDirectory (files : List (List Char)) (s : PState) :
    PState × Nat :=
  files.foldl (removeLinksStep (parseTrimList s.settings.linksToRemove)) (s, 0)

/-- The two user notices `undoLastChanges` can produce. -/
inductive UndoNotice where
  | noChangesToUndo
  | undidChanges (count : Nat)
deriving DecidableEq

/-- Replay a list of ledger records onto a content map, in order
(`vault.modify(change.file, change.oldContent)` for each record). -/
def applyRecords (docs : List Char → List Char) (records : List LedgerEntry) :
    List Char → List Char :=
  records.foldl (fun d e => writeDoc d e.file e.oldContent) docs

/-- Model of `undoLastChanges()`: report when the ledger is empty; otherwise
rewrite each recorded document to its recorded old content, in order, then
clear the ledger. -/
def undoLastChanges (s : PState) : PState × UndoNotice :=
  if s.lastChanges.isEmpty then (s, UndoNotice.noChangesToUndo)
  else
    ({ s with docs := applyRecords s.docs s.lastChanges, lastChanges := [] },
      UndoNotice.undidChanges s.lastChanges.length)

/-!
Supporting lemmas about the section loop of `linkWords`.
-/

/-- The excluded flag governing position `i` of the section list: the value the
loop flag has after folding over the sections before `i`. -/
def flagAt (excl : List (List Char)) (init : Bool) (pre : List (List Char)) : Bool :=
  pre.foldl
    (fun f sec => if sec.head? = some '#' then isExcludedHeading excl sec else f) init

theorem flagAt_cons (excl : List (List Char)) (init : Bool) (sec : List Char)
    (pre : List (List Char)) :
    flagAt excl init (sec :: pre) =
      flagAt excl (if sec.head? = some '#' then isExcludedHeading excl sec else init)
        pre := rfl

theorem applyWords_cons (eo : Bool) (fx : List Char → Bool)
    (black white : List (List Char)) (w : List Char) (ws : List (List Char))
    (sec : List Char) :
    applyWords eo fx black white (w :: ws) sec =
      applyWords eo fx black white ws
        (if wordEligible black white w then replaceWord eo fx w sec else sec) := rfl

theorem applyWords_filter (eo : Bool) (fx : List Char → Bool)
    (black white : List (List Char)) (ws : List (List Char)) :
    ∀ sec : List Char,
      applyWords eo fx black white ws sec =
        applyWords eo fx black white (ws.filter (wordEligible black white)) sec := by
  induction ws with
  | nil => intro sec; rfl
  | cons w ws ih =>
    intro sec
    by_cases he : wordEligible black white w
    · rw [applyWords_cons, if_pos he, List.filter_cons, if_pos he,
        applyWords_cons, if_pos he, ih]
    · rw [applyWords_cons, if_neg he, List.filter_cons,
        if_neg (by simpa using he), ih]

theorem processSections_filter (excl black white : List (List Char)) (eo : Bool)
    (fx : List Char → Bool) (ws : List (List Char)) :
    ∀ (secs : List (List Char)) (init : Bool),
      processSections excl black white eo fx ws init secs =
        processSections excl black white eo fx (ws.filter (wordEligible black white))
          init secs := by
  intro secs
  induction secs with
  | nil => intro init; rfl
  | cons sec rest ih =>
    intro init
    rw [processSections, processSections]
    by_cases hh : sec.head? = some '#'
    · rw [if_pos hh, if_pos hh, ih]
    · rw [if_neg hh, if_neg hh]
      by_cases hf : init
      · rw [if_pos hf, if_pos hf, ih]
      · rw [if_neg hf, if_neg hf, ih, applyWords_filter]

theorem processSections_no_words (excl black white : List (List Char)) (eo : Bool)
    (fx : List Char → Bool) :
    ∀ (secs : List (List Char)) (init : Bool),
      processSections excl black white eo fx [] init secs = secs := by
  intro secs
  induction secs with
  | nil => intro init; rfl
  | cons sec rest ih =>
    intro init
    rw [processSections]
    by_cases hh : sec.head? = some '#'
    · rw [if_pos hh, ih]
    · rw [if_neg hh]
      by_cases hf : init
      · rw [if_pos hf, ih]
      · rw [if_neg hf, ih]; rfl

theorem processSections_getElem (excl black white : List (List Char)) (eo : Bool)
    (fx : List Char → Bool) (ws : List (List Char)) :
    ∀ (secs : List (List Char)) (init : Bool) (i : Nat),
      (processSections excl black white eo fx ws init secs)[i]? =
        (secs[i]?).map (fun sec =>
          if sec.head? = some '#' then sec
          else if flagAt excl init (secs.take i) then sec
          else applyWords eo fx black white ws sec) := by
  intro secs
  induction secs with
  | nil => intro init i; simp [processSections]
  | cons sec rest ih =>
    intro init i
    rw [processSections]
    by_cases hh : sec.head? = some '#'
    · rw [if_pos hh]
      cases i with
      | zero => simp [hh]
      | succ j =>
        rw [List.getElem?_cons_succ, List.getElem?_cons_succ, ih,
          List.take_succ_cons, flagAt_cons, if_pos hh]
    · rw [if_neg hh]
      by_cases hf : init
      · rw [if_pos hf]
        cases i with
        | zero => simp [hh, flagAt, hf]
        | succ j =>
          rw [List.getElem?_cons_succ, List.getElem?_cons_succ, ih,
            List.take_succ_cons, flagAt_cons, if_neg hh]
      · rw [if_neg hf]
        cases i with
        | zero => simp [hh, flagAt, hf]
        | succ j =>
          rw [List.getElem?_cons_succ, List.getElem?_cons_succ, ih,
            List.take_succ_cons, flagAt_cons, if_neg hh]

/-!
Supporting lemmas about the Link Remover scan.
-/

theorem lowerChar_eq_lbracket {c : Char} (h : lowerChar c = '[') : c = '[' := by
  revert h
  unfold lowerChar
  split <;> intro h <;> first | exact absurd h (by decide) | exact h

theorem ciReplaceAllF_nil (p0 : Char) (prest repl : List Char) :
    ∀ fuel : Nat, ciReplaceAllF p0 prest repl fuel [] = [] := by
  intro fuel
  cases fuel with
  | zero => rfl
  | succ fuel => rfl

theorem ciReplaceAllF_skip (prest repl : List Char) :
    ∀ seg : List Char, (∀ c ∈ seg, c ≠ '[') → ∀ (fuel : Nat) (t : List Char),
      ciReplaceAllF '[' prest repl (seg.length + fuel) (seg ++ t) =
        seg ++ ciReplaceAllF '[' prest repl fuel t := by
  intro seg
  induction seg with
  | nil => intro _ fuel t; simp
  | cons c seg ih =>
    intro hseg fuel t
    have hc : c ≠ '[' := hseg c (List.mem_cons_self ..)
    have hlc : lowerChar c ≠ '[' := fun h => hc (lowerChar_eq_lbracket h)
    have hstep : ciTake ('[' :: prest) (c :: (seg ++ t)) = none := by
      rw [ciTake, if_neg]
      rw [show lowerChar '[' = '[' from by decide]
      exact hlc
    have hl : (c :: seg).length + fuel = (seg.length + fuel) + 1 := by
      simp [Nat.add_right_comm]
    rw [hl, List.cons_append, ciReplaceAllF, hstep,
      ih (fun x hx => hseg x (List.mem_cons_of_mem _ hx)) fuel t]
    rfl

theorem ciReplaceAllF_step (p0 : Char) (prest repl : List Char) (fuel : Nat)
    (t : List Char) :
    ciReplaceAllF p0 prest repl (fuel + 1) ((p0 :: prest) ++ t) =
      repl ++ ciReplaceAllF p0 prest repl fuel t := by
  have hm : ciTake (p0 :: prest) (p0 :: (prest ++ t)) = some (p0 :: prest, t) := by
    rw [← List.cons_append]; exact ciTake_self_append _ _
  rw [List.cons_append, ciReplaceAllF, hm]

theorem ciReplaceAllF_no_occur (p0 : Char) (prest repl : List Char) :
    ∀ (fuel : Nat) (s : List Char), ciOccurs (p0 :: prest) s = false →
      ciReplaceAllF p0 prest repl fuel s = s := by
  intro fuel
  induction fuel with
  | zero => intro s _; rfl
  | succ fuel ih =>
    intro s hocc
    have hself : ciTake (p0 :: prest) s = none := by
      rw [ciOccurs, List.any_eq_false] at hocc
      have := hocc s (by simp [List.mem_tails])
      simpa [Option.isSome_iff_ne_none] using this
    cases s with
    | nil => rfl
    | cons c rs =>
      have hrs : ciOccurs (p0 :: prest) rs = false := by
        rw [ciOccurs, List.any_eq_false] at hocc ⊢
        intro t ht
        exact hocc t (by
          rw [List.mem_tails] at ht ⊢
          exact ht.trans (List.suffix_cons c rs))
      rw [ciReplaceAllF, hself, ih rs hrs]

/-- Concatenation of segments interleaved with a separator; `joinSep sep segs`
with separator `[[link]]` describes exactly the texts whose bare-bracket
occurrences of `link` sit between the given segments. -/
def joinSep (sep : List Char) : List (List Char) → List Char
  | [] => []
  | [s] => s
  | s :: s2 :: rest => s ++ sep ++ joinSep sep (s2 :: rest)

/-- Number of scan steps used by the replacement scan on `joinSep sep segs`:
one per segment character and one per separator copy. -/
def stepsOf : List (List Char) → Nat
  | [] => 0
  | [s] => s.length
  | s :: s2 :: rest => s.length + 1 + stepsOf (s2 :: rest)

theorem ciReplaceAllF_joinSep (prest repl : List Char) :
    ∀ segs : List (List Char), (∀ seg ∈ segs, ∀ c ∈ seg, c ≠ '[') →
      ∀ fuel : Nat,
        ciReplaceAllF '[' prest repl (stepsOf segs + fuel)
          (joinSep ('[' :: prest) segs) = joinSep repl segs := by
  intro segs
  induction segs with
  | nil => intro _ fuel; rw [joinSep, stepsOf, ciReplaceAllF_nil]; rfl
  | cons s rest ih =>
    intro hfree fuel
    have hs : ∀ c ∈ s, c ≠ '[' := hfree s (List.mem_cons_self ..)
    cases rest with
    | nil =>
      rw [joinSep, stepsOf, joinSep]
      have := ciReplaceAllF_skip prest repl s hs fuel []
      rw [List.append_nil] at this
      rw [this, ciReplaceAllF_nil, List.append_nil]
    | cons s2 rest2 =>
      rw [joinSep, stepsOf, joinSep]
      have harith : s.length + 1 + stepsOf (s2 :: rest2) + fuel =
          s.length + (stepsOf (s2 :: rest2) + fuel + 1) := by omega
      rw [harith, List.append_assoc,
        ciReplaceAllF_skip prest repl s hs (stepsOf (s2 :: rest2) + fuel + 1),
        ciReplaceAllF_step, ih (fun g hg => hfree g (List.mem_cons_of_mem _ hg)) fuel,
        List.append_assoc]

theorem stepsOf_le_joinSep (prest : List Char) :
    ∀ segs : List (List Char), stepsOf segs ≤ (joinSep ('[' :: prest) segs).length := by
  intro segs
  induction segs with
  | nil => simp [stepsOf, joinSep]
  | cons s rest ih =>
    cases rest with
    | nil => rw [stepsOf, joinSep]
    | cons s2 rest2 =>
      rw [stepsOf, joinSep]
      simp only [List.length_append, List.length_cons]
      omega

theorem removeLinks_single (content link : List Char) :
    removeLinks content [link] =
      ciReplaceAll ('[' :: '[' :: (link ++ [']', ']'])) link content := rfl

theorem removeLinks_cons (content l : List Char) (ls : List (List Char)) :
    removeLinks content (l :: ls) =
      removeLinks (ciReplaceAll ('[' :: '[' :: (l ++ [']', ']'])) l content) ls := rfl

/-!
Supporting lemma for the Corpus Link Extractor: the conditional push is the
retention filter applied to the unfiltered target sequence.
-/

theorem getFileLinksF_eq_filter :
    ∀ (fuel : Nat) (s : List Char),
      getFileLinksF fuel s = (rawLinksF fuel s).filter keepLink := by
  intro fuel
  induction fuel with
  | zero => intro s; rfl
  | succ fuel ih =>
    intro s
    cases s with
    | nil => rfl
    | cons c rest =>
      rw [getFileLinksF, rawLinksF]
      by_cases h1 : (c = '[' && rest.head? = some '[') = true
      · rw [if_pos h1, if_pos h1]
        by_cases h2 : (rest.tail.takeWhile (fun x => x ≠ ']')).isEmpty = true
        · rw [if_pos h2, if_pos h2, ih]
        · rw [if_neg h2, if_neg h2]
          by_cases h3 : ((rest.tail.dropWhile (fun x => x ≠ ']')).head? = some ']' &&
              (rest.tail.dropWhile (fun x => x ≠ ']')).tail.head? = some ']') = true
          · rw [if_pos h3, if_pos h3, ih, List.filter_cons]
            by_cases h4 :
                keepLink (aliasTarget (rest.tail.takeWhile (fun x => x ≠ ']'))) = true
            · rw [if_pos h4, if_pos h4]; rfl
            · rw [if_neg h4, if_neg h4]; rfl
          · rw [if_neg h3, if_neg h3, ih]
      · rw [if_neg h1, if_neg h1, ih]

/-!
Supporting lemmas about the ledger and the run operations.
-/

theorem autoLinkFile_ledger (f : List Char) (s : PState) :
    (autoLinkFile f s).lastChanges = s.lastChanges ∨
      (autoLinkFile f s).lastChanges = s.lastChanges ++ [⟨f, s.docs f⟩] := by
  by_cases h : linkWords s.settings (fileExists s) (s.docs f) (getWordsToLink s) =
      s.docs f
  · left; simp [autoLinkFile, h]
  · right; simp [autoLinkFile, h]

theorem extendLinkingToDirectory_cons (f : List Char) (fs : List (List Char))
    (s : PState) :
    extendLinkingToDirectory (f :: fs) s =
      extendLinkingToDirectory fs (autoLinkFile f s) := rfl

theorem extendLinkingToDirectory_ledger (files : List (List Char)) :
    ∀ s : PState, ∃ new,
      (extendLinkingToDirectory files s).lastChanges = s.lastChanges ++ new := by
  induction files with
  | nil => intro s; exact ⟨[], by simp [extendLinkingToDirectory]⟩
  | cons f fs ih =>
    intro s
    obtain ⟨new2, hnew2⟩ := ih (autoLinkFile f s)
    rcases autoLinkFile_ledger f s with h | h
    · exact ⟨new2, by rw [extendLinkingToDirectory_cons, hnew2, h]⟩
    · exact ⟨⟨f, s.docs f⟩ :: new2, by
        rw [extendLinkingToDirectory_cons, hnew2, h, List.append_assoc]; rfl⟩

theorem applyRecords_cons (d : List Char → List Char) (e : LedgerEntry)
    (rs : List LedgerEntry) :
    applyRecords d (e :: rs) = applyRecords (writeDoc d e.file e.oldContent) rs := rfl

theorem applyRecords_congr (records : List LedgerEntry) :
    ∀ (d1 d2 : List Char → List Char) (p : List Char), d1 p = d2 p →
      applyRecords d1 records p = applyRecords d2 records p := by
  induction records with
  | nil => intro d1 d2 p h; exact h
  | cons e rs ih =>
    intro d1 d2 p h
    rw [applyRecords_cons, applyRecords_cons]
    exact ih _ _ p (by rw [writeDoc, writeDoc]; by_cases hp : p = e.file <;> simp [hp, h])

theorem applyRecords_not_mem (records : List LedgerEntry) :
    ∀ (d : List Char → List Char) (p : List Char), (∀ e ∈ records, e.file ≠ p) →
      applyRecords d records p = d p := by
  induction records with
  | nil => intro d p _; rfl
  | cons e rs ih =>
    intro d p h
    rw [applyRecords_cons]
    rw [ih _ p (fun x hx => h x (List.mem_cons_of_mem _ hx))]
    rw [writeDoc, if_neg]
    intro hp
    exact h e (List.mem_cons_self ..) (by rw [hp])

theorem applyRecords_append_single (d : List Char → List Char)
    (records : List LedgerEntry) (e : LedgerEntry) :
    applyRecords d (records ++ [e]) =
      writeDoc (applyRecords d records) e.file e.oldContent := by
  rw [applyRecords, List.foldl_append]
  rfl

theorem autoLinkFile_replay (f : List Char) (s : PState)
    (hfresh : ∀ e ∈ s.lastChanges, e.file ≠ f) (p : List Char) :
    applyRecords (autoLinkFile f s).docs (autoLinkFile f s).lastChanges p =
      applyRecords s.docs s.lastChanges p := by
  by_cases h : linkWords s.settings (fileExists s) (s.docs f) (getWordsToLink s) =
      s.docs f
  · simp [autoLinkFile, h]
  · simp only [autoLinkFile, if_neg h]
    rw [applyRecords_append_single]
    rw [writeDoc]
    by_cases hp : p = f
    · rw [if_pos hp, hp, applyRecords_not_mem s.lastChanges s.docs f hfresh]
    · rw [if_neg hp]
      exact applyRecords_congr s.lastChanges _ _ p (by rw [writeDoc, if_neg hp])

theorem extend_replay (files : List (List Char)) :
    ∀ s : PState, (∀ e ∈ s.lastChanges, e.file ∉ files) → files.Nodup →
      ∀ p : List Char,
        applyRecords (extendLinkingToDirectory files s).docs
            (extendLinkingToDirectory files s).lastChanges p =
          applyRecords s.docs s.lastChanges p := by
  induction files with
  | nil => intro s _ _ p; rfl
  | cons f fs ih =>
    intro s hfresh hnd p
    have hf_notin : f ∉ fs := (List.nodup_cons.mp hnd).1
    have hfresh1 : ∀ e ∈ s.lastChanges, e.file ≠ f := by
      intro e he hef
      exact hfresh e he (by rw [hef]; exact List.mem_cons_self ..)
    have hfresh2 : ∀ e ∈ (autoLinkFile f s).lastChanges, e.file ∉ fs := by
      intro e he
      rcases autoLinkFile_ledger f s with hl | hl
      · rw [hl] at he
        intro hmem
        exact hfresh e he (List.mem_cons_of_mem _ hmem)
      · rw [hl] at he
        rcases List.mem_append.mp he with hold | hnew
        · intro hmem
          exact hfresh e hold (List.mem_cons_of_mem _ hmem)
        · have : e = ⟨f, s.docs f⟩ := by simpa using hnew
          rw [this]
          exact hf_notin
    rw [extendLinkingToDirectory_cons]
    exact (ih (autoLinkFile f s) hfresh2 (List.nodup_cons.mp hnd).2 p).trans
      (autoLinkFile_replay f s hfresh1 p)

theorem undoLastChanges_docs (t : PState) (p : List Char) :
    (undoLastChanges t).1.docs p = applyRecords t.docs t.lastChanges p := by
  rw [undoLastChanges]
  by_cases h : t.lastChanges.isEmpty
  · rw [if_pos h]
    have he : t.lastChanges = [] := List.isEmpty_iff.mp h
    rw [he]; rfl
  · rw [if_neg h]

theorem undoLastChanges_ledger (t : PState) :
    (undoLastChanges t).1.lastChanges = [] := by
  rw [undoLastChanges]
  by_cases h : t.lastChanges.isEmpty
  · rw [if_pos h]; exact List.isEmpty_iff.mp h
  · rw [if_neg h]

theorem undoLastChanges_empty (t : PState) (h : t.lastChanges = []) :
    undoLastChanges t = (t, UndoNotice.noChangesToUndo) := by
  rw [undoLastChanges, if_pos (by simp [h])]

theorem removeLinksStep_ledger (links : List (List Char)) (acc : PState × Nat)
    (f : List Char) : (removeLinksStep links acc f).1.lastChanges =
      acc.1.lastChanges := by
  rw [removeLinksStep]
  by_cases h : removeLinks (acc.1.docs f) links = acc.1.docs f
  · simp [h]
  · simp [h]

theorem foldl_removeLinksStep_ledger (links : List (List Char))
    (files : List (List Char)) :
    ∀ acc : PState × Nat,
      (files.foldl (removeLinksStep links) acc).1.lastChanges =
        acc.1.lastChanges := by
  induction files with
  | nil => intro acc; rfl
  | cons f fs ih =>
    intro acc
    rw [List.foldl_cons, ih, removeLinksStep_ledger]

theorem isPrefixOf_brackets_eq_false (r : List Char)
    (h : (r.head? = some ']' && r.tail.head? = some ']') = false) :
    ([']', ']'].isPrefixOf r) = false := by
  cases r with
  | nil => rfl
  | cons a rs =>
    cases rs with
    | nil => simp [List.isPrefixOf]
    | cons b rs2 =>
      by_cases ha : a = ']'
      · by_cases hb : b = ']'
        · subst ha; subst hb; simp at h
        · simp [List.isPrefixOf, hb]
          exact fun _ hbad => hb hbad.symm
      · simp [List.isPrefixOf, ha]
        exact fun hbad => absurd hbad.symm ha

/-!
Concrete vault states used by individual claims.
-/

/-- A vault whose corpus produces the vocabulary `["b", "a[["]` (both targets
are extracted from existing bracket markup, and extracted targets may contain
`[`). -/
def bracketVault : PState :=
  ⟨[("W.md").data, ("D.md").data],
    fun p => if p = ("W.md").data then ("[[b]] [[a[[]]").data
      else if p = ("D.md").data then ("a[[b").data else [],
    DEFAULT_SETTINGS, []⟩

/-- A state whose ledger still holds a record of an earlier run, with a vault
whose corpus yields no linkable words. -/
def staleLedgerState : PState :=
  ⟨[("B.md").data],
    fun p => if p = ("B.md").data then ("x").data else [],
    DEFAULT_SETTINGS, [⟨("A.md").data, ("old").data⟩]⟩

/-- A small vault for exercising a linking run followed by undo: `V.md` links
to `Paris`, making `Paris` a vocabulary term, and `T.md` mentions it in plain
text. -/
def undoExampleState : PState :=
  ⟨[("V.md").data, ("T.md").data],
    fun p => if p = ("V.md").data then ("see [[Paris]]").data
      else if p = ("T.md").data then ("I visited Paris and Rome.").data else [],
    DEFAULT_SETTINGS, []⟩

/-- A state holding a record of an earlier linking run on `A.md` while `B.md`
contains a removable link and the removal setting names it. -/
def removalExampleState : PState :=
  ⟨[("A.md").data, ("B.md").data],
    fun p => if p = ("B.md").data then ("x [[t]] y").data
      else if p = ("A.md").data then ("a1").data else [],
    { DEFAULT_SETTINGS with linksToRemove := ("t").data },
    [⟨("A.md").data, ("a0").data⟩]⟩

/-- Settings whose whitelist is `"Alpha"`. -/
def whitelistAlphaSettings : AutoLinkerSettings :=
  { DEFAULT_SETTINGS with whitelistedStrings := ("Alpha").data }

/-- Settings whose whitelist and blacklist both hold `"Alpha"`. -/
def bothAlphaSettings : AutoLinkerSettings :=
  { DEFAULT_SETTINGS with
      whitelistedStrings := ("Alpha").data
      blacklistedStrings := ("Alpha").data }

/-!
The claims.
-/

/-- Claim C1, counterexample: the Section-Aware Linker is not idempotent and
does not leave already-linked text unchanged.  With the effective word list
`["b", "a[["]` produced by `bracketVault` (and default filter settings),
running the linker twice on `"a[[b"` gives `"[[a[[]]b"` and then
`"[[a[[]][[b]]"`, so the second run changes the first run's output; and with
word list `["b"]` the already-linked text `"[[a b c]]"` becomes
`"[[a [[b]] c]]"` (the term `b` is re-wrapped inside the linked span). -/
theorem claim_C1_counterexample :
    linkWords bracketVault.settings (fileExists bracketVault)
        (linkWords bracketVault.settings (fileExists bracketVault)
          (("a[[b").data) (getWordsToLink bracketVault))
        (getWordsToLink bracketVault) ≠
      linkWords bracketVault.settings (fileExists bracketVault)
        (("a[[b").data) (getWordsToLink bracketVault) ∧
    linkWords DEFAULT_SETTINGS (fun _ => false) (("[[a b c]]").data)
        [("b").data] ≠ ("[[a b c]]").data := by
  constructor
  · decide
  · decide

/-- Claim C1, amended: the lookaround exclusion of the word pattern protects
exactly the occurrences immediately flanked by bracket markup: a match attempt
at a position immediately preceded by `[[` always fails, and a successful
match is never immediately followed by `]]`.  Full idempotence and blanket
preservation of already-linked text do not hold (see the counterexample). -/
theorem claim_C1_amended (w prev rest : List Char) :
    tryMatch w ('[' :: '[' :: prev) rest = none ∧
      ∀ m r : List Char, tryMatch w prev rest = some (m, r) →
        ([']', ']'].isPrefixOf r) = false := by
  constructor
  · rw [tryMatch]
    cases hm : ciTake w rest with
    | none => rfl
    | some p =>
      obtain ⟨m', r'⟩ := p
      simp
  · intro m r h
    rw [tryMatch] at h
    cases hm : ciTake w rest with
    | none => rw [hm] at h; exact absurd h (by simp)
    | some p =>
      obtain ⟨m', r'⟩ := p
      rw [hm] at h
      simp only [] at h
      split at h
      · rename_i hcond
        simp only [Option.some.injEq, Prod.mk.injEq] at h
        obtain ⟨h1, h2⟩ := h
        subst h1; subst h2
        simp only [Bool.and_eq_true, Bool.not_eq_eq_eq_not, Bool.not_true] at hcond
        obtain ⟨⟨⟨_, _⟩, _⟩, hla⟩ := hcond
        exact isPrefixOf_brackets_eq_false _ hla
      · exact absurd h (by simp)

/-- Claim C1, amended, witness: a successful match (word `b` at the start of
`"b x"`) whose remainder is indeed not bracket-flanked. -/
theorem claim_C1_amended_witness :
    tryMatch (("b").data) [] (("b x").data) =
        some ((("b").data), ((" x").data)) ∧
      ([']', ']'].isPrefixOf ((" x").data)) = false := by
  constructor
  · decide
  · exact (claim_C1_amended (("b").data) [] (("b x").data)).2 (("b").data)
      ((" x").data) (by decide)

/-- Claim C2: splitting a document into sections and rejoining by plain
concatenation reproduces the original text exactly, and the Section-Aware
Linker applied with an empty word list returns the text unchanged. -/
theorem claim_C2 (st : AutoLinkerSettings) (fx : List Char → Bool)
    (content : List Char) :
    (splitSections content).flatten = content ∧
      linkWords st fx content [] = content := by
  refine ⟨flatten_splitSections content, ?_⟩
  rw [linkWords, processSections_no_words, flatten_splitSections]

/-- Claim C3, counterexample: the extend-linking-to-directory run does not
clear the Change Ledger at its start.  Starting from a state whose ledger
still holds a record of an earlier run, a directory run (which makes no new
records because the corpus yields no words) finishes with the stale record
still in the ledger, so the ledger is not limited to the current run's
records. -/
theorem claim_C3_counterexample :
    (extendLinkingToDirectory [("B.md").data] staleLedgerState).lastChanges =
        [⟨("A.md").data, ("old").data⟩] ∧
      ([⟨("A.md").data, ("old").data⟩] : List LedgerEntry) ≠ [] := by
  constructor
  · decide
  · decide

/-- Claim C3, amended: only the single-file run clears the ledger at its start
(its result is independent of the prior ledger contents); the
extend-linking-to-directory run never clears it and only appends, so the prior
run's records are retained as a prefix of the ledger. -/
theorem claim_C3_amended (a : Option (List Char)) (files : List (List Char))
    (s : PState) :
    autoLinkCurrentFile a s = autoLinkCurrentFile a { s with lastChanges := [] } ∧
      ∃ new, (extendLinkingToDirectory files s).lastChanges =
        s.lastChanges ++ new := by
  exact ⟨rfl, extendLinkingToDirectory_ledger files s⟩

/-- Claim C4: after a linking run over distinct files started with an empty
ledger, undo rewrites every document back to its pre-run content (replaying
the records in order) and clears the ledger; undo on an empty ledger reports
the distinct empty-ledger notice and changes nothing. -/
theorem claim_C4 (s : PState) (files : List (List Char))
    (h0 : s.lastChanges = []) (hnd : files.Nodup) :
    (∀ p, (undoLastChanges (extendLinkingToDirectory files s)).1.docs p =
        s.docs p) ∧
      (undoLastChanges (extendLinkingToDirectory files s)).1.lastChanges = [] ∧
      ∀ t : PState, t.lastChanges = [] →
        undoLastChanges t = (t, UndoNotice.noChangesToUndo) := by
  refine ⟨?_, undoLastChanges_ledger _, fun t ht => undoLastChanges_empty t ht⟩
  intro p
  rw [undoLastChanges_docs]
  have hrep := extend_replay files s (by rw [h0]; simp) hnd p
  rw [hrep, h0]
  rfl

/-- Claim C4, witness: a run that modifies `T.md` (linking `Paris`), after
which undo restores its original content. -/
theorem claim_C4_witness :
    undoExampleState.lastChanges = [] ∧
      ([("T.md").data] : List (List Char)).Nodup ∧
      (undoLastChanges
          (extendLinkingToDirectory [("T.md").data] undoExampleState)).1.docs
        (("T.md").data) = ("I visited Paris and Rome.").data := by
  refine ⟨rfl, by decide, ?_⟩
  have h := (claim_C4 undoExampleState [("T.md").data] rfl (by decide)).1
    (("T.md").data)
  rw [h]
  decide

/-- Claim C5: the whitelist and blacklist gates of the word loop are exactly a
filter on the word list — removing the ineligible words (blacklisted, or
missing from a non-empty whitelist) never changes the output, so an ineligible
term is never linked; concretely, with whitelist `Alpha` only `Alpha` is
linked, and a term that is both whitelisted and blacklisted is never linked
(the blacklist is a hard skip). -/
theorem claim_C5 (st : AutoLinkerSettings) (fx : List Char → Bool)
    (content : List Char) (words : List (List Char)) :
    linkWords st fx content words =
        linkWords st fx content
          (words.filter (wordEligible (parseLowerList st.blacklistedStrings)
            (parseLowerList st.whitelistedStrings))) ∧
      linkWords whitelistAlphaSettings (fun _ => false) (("Alpha Beta").data)
          [("Alpha").data, ("Beta").data] = ("[[Alpha]] Beta").data ∧
      linkWords bothAlphaSettings (fun _ => false)
          (("Alpha Beta").data) [("Alpha").data, ("Beta").data] =
        ("Alpha Beta").data := by
  refine ⟨?_, by decide, by decide⟩
  rw [linkWords, linkWords, processSections_filter]

/-- Claim C6: the output section at any index equals the input section when it
is a heading (headings never receive links) or when the flag accumulated from
the most recent preceding heading (initially `false`, hence a body chunk with
no preceding heading is scanned) marks it excluded — a heading whose
lower-cased text contains an excluded-section rule as a substring; otherwise
it goes through the word loop.  The first conjunct ties this section loop to
`linkWords` itself. -/
theorem claim_C6 (st : AutoLinkerSettings) (fx : List Char → Bool)
    (ws : List (List Char)) (content : List Char) (i : Nat) :
    linkWords st fx content ws =
        (processSections (parseLowerList st.excludedBlocks)
          (parseLowerList st.blacklistedStrings)
          (parseLowerList st.whitelistedStrings) st.existingFilesOnly fx ws
          false (splitSections content)).flatten ∧
      (processSections (parseLowerList st.excludedBlocks)
          (parseLowerList st.blacklistedStrings)
          (parseLowerList st.whitelistedStrings) st.existingFilesOnly fx ws
          false (splitSections content))[i]? =
        ((splitSections content)[i]?).map (fun sec =>
          if sec.head? = some '#' then sec
          else if flagAt (parseLowerList st.excludedBlocks) false
              ((splitSections content).take i) then sec
          else applyWords st.existingFilesOnly fx
            (parseLowerList st.blacklistedStrings)
            (parseLowerList st.whitelistedStrings) ws sec) := by
  exact ⟨rfl, processSections_getElem _ _ _ _ _ _ _ _ i⟩

/-- Claim C7: the Link Remover replaces every occurrence of a configured term
wrapped in bare bracket markup by the bare term — for any segmentation of the
text into bracket-free segments separated by `[[term]]` copies, every copy is
unwrapped (case-insensitively, see also `claim_C9`) — leaves aliased
`[[Term|alias]]` forms untouched, and returns the text unchanged when no rule
matches anywhere. -/
theorem claim_C7 :
    (∀ (content : List Char) (links : List (List Char)),
        (∀ l ∈ links,
          ciOccurs ('[' :: '[' :: (l ++ [']', ']'])) content = false) →
        removeLinks content links = content) ∧
      (∀ (segs : List (List Char)) (link : List Char),
        (∀ seg ∈ segs, ∀ c ∈ seg, c ≠ '[') →
        removeLinks (joinSep ('[' :: '[' :: (link ++ [']', ']'])) segs)
          [link] = joinSep link segs) ∧
      removeLinks (("I visited [[Paris]] and Rome.").data) [("Paris").data] =
        ("I visited Paris and Rome.").data ∧
      removeLinks (("I visited [[Paris|the city]] today.").data)
          [("Paris").data] = ("I visited [[Paris|the city]] today.").data := by
  refine ⟨?_, ?_, by decide, by decide⟩
  · intro content links
    induction links with
    | nil => intro _; rfl
    | cons l ls ih =>
      intro h
      have h1 : ciReplaceAll ('[' :: '[' :: (l ++ [']', ']'])) l content =
          content := by
        rw [ciReplaceAll]
        exact ciReplaceAllF_no_occur '[' _ l _ content
          (h l (List.mem_cons_self ..))
      rw [removeLinks_cons, h1]
      exact ih (fun x hx => h x (List.mem_cons_of_mem _ hx))
  · intro segs link hfree
    rw [removeLinks_single, ciReplaceAll]
    have hle := stepsOf_le_joinSep ('[' :: (link ++ [']', ']'])) segs
    have harith :
        (joinSep ('[' :: '[' :: (link ++ [']', ']'])) segs).length + 1 =
          stepsOf segs +
            ((joinSep ('[' :: '[' :: (link ++ [']', ']'])) segs).length + 1 -
              stepsOf segs) := by
      omega
    rw [harith]
    exact ciReplaceAllF_joinSep ('[' :: (link ++ [']', ']'])) link segs hfree _

/-- Claim C7, witness: the no-match hypothesis and the segmentation hypothesis
are both satisfiable: text without the pattern is unchanged, and the Paris
example arises as a two-segment instance of the general unwrapping. -/
theorem claim_C7_witness :
    (∀ l ∈ ([("Paris").data] : List (List Char)),
        ciOccurs ('[' :: '[' :: (l ++ [']', ']'])) (("no links here").data) =
          false) ∧
      removeLinks (("no links here").data) [("Paris").data] =
        ("no links here").data ∧
      (∀ seg ∈ ([("I visited ").data, (" and Rome.").data] : List (List Char)),
        ∀ c ∈ seg, c ≠ '[') ∧
      removeLinks (joinSep ('[' :: '[' :: (("Paris").data ++ [']', ']']))
          [("I visited ").data, (" and Rome.").data]) [("Paris").data] =
        joinSep (("Paris").data) [("I visited ").data, (" and Rome.").data] := by
  refine ⟨by decide, ?_, by decide, ?_⟩
  · exact claim_C7.1 _ _ (by decide)
  · exact claim_C7.2.1 _ _ (by decide)

/-- Claim C8: the Corpus Link Extractor returns, in order of appearance, the
bracket targets cut at the first separator and trimmed, and its output is
exactly the unfiltered target sequence filtered by the retention test (no
`.` in the target, or a `.md` suffix); the concrete example exercises order,
alias cutting, trimming, and both filter outcomes. -/
theorem claim_C8 :
    (∀ content : List Char,
        getFileLinks content = (rawLinks content).filter keepLink) ∧
      getFileLinks
          (("see [[A]] and [[B|label]], [[C.txt]], [[D.md]], [[ E |x]].").data) =
        [("A").data, ("B").data, ("D.md").data, ("E").data] := by
  refine ⟨?_, by decide⟩
  intro content
  rw [getFileLinks, rawLinks]
  exact getFileLinksF_eq_filter _ _

/-- Claim C9: when the Link Remover unwraps a bracketed occurrence whose
casing differs from the configured term (`[[paris]]` with rule `Paris`), the
replacement is the configured term verbatim, so the original casing inside the
brackets is not preserved. -/
theorem claim_C9 :
    removeLinks (("I visited [[paris]] and Rome.").data) [("Paris").data] =
        ("I visited Paris and Rome.").data ∧
      removeLinks (("I visited [[paris]] and Rome.").data) [("Paris").data] ≠
        ("I visited paris and Rome.").data := by
  constructor
  · decide
  · decide

/-- Claim C10: the remove-links-from-directory run never touches the Change
Ledger, so link removal cannot be reverted by undo; concretely, after a
removal run on `B.md` from a state whose ledger records an earlier linking run
on `A.md`, invoking undo restores `A.md` to that earlier record while `B.md`
keeps its removal result. -/
theorem claim_C10 (files : List (List Char)) (s : PState) :
    (removeLinksFromDirectory files s).1.lastChanges = s.lastChanges ∧
      (undoLastChanges (removeLinksFromDirectory [("B.md").data]
          removalExampleState).1).1.docs (("B.md").data) = ("x t y").data ∧
      (undoLastChanges (removeLinksFromDirectory [("B.md").data]
          removalExampleState).1).1.docs (("A.md").data) = ("a0").data := by
  refine ⟨?_, by decide, by decide⟩
  rw [removeLinksFromDirectory]
  exact foldl_removeLinksStep_ledger _ files (s, 0)

end AutoLinker
